import Mathlib

/-!
Verification of the label-reconciliation logic of `gh_labeler.py` (a CI
utility that synchronizes pull-request labels from glob rules over the
changed files of a pull request).

The embedding below translates the Python source shallowly:

* glob matching is delegated by the source to the external `wcmatch`
  library, so it is taken here as an abstract parameter
  `m : Matcher` (`m file pattern` is `glob.globmatch(file, pattern, flags)`
  for the configured flag set);
* Python `str.lower()` is embedded as `strLower`;
* Python `for` loops with `break` become structural recursion;
* Python sets that the source only queries for membership are embedded as
  lists in insertion order (the source iterates `remove_labels` and
  `add_labels`, which are sets, in an unspecified order; the embedding
  fixes insertion order, and every order-sensitive claim is noted where it
  is settled);
* the network layer is embedded as the list of side-effecting calls the
  run would issue (`Call.delete name` for one DELETE of
  `Api.remove_issue_labels`, `Call.add names` for the single POST of
  `Api.add_issue_labels`).
-/

/-- A labeling rule, one entry of `config['rules']`
(`gh_labeler.py`, line 207): a list of label names and a list of glob
patterns. -/
structure Rule where
  labels : List String
  patterns : List String
deriving DecidableEq

/-- Abstract glob matcher: `m file pattern` stands for
`glob.globmatch(file, pattern, flags=self.flags)` (line 278). -/
def Matcher : Type := String → String → Bool

/-- Embedding of Python `str.lower()` (used at lines 250, 255, 275, 292):
character-wise lowercasing of the string. -/
def strLower (s : String) : String := ⟨s.data.map Char.toLower⟩

/-- The pattern loop of `apply` (lines 276-280): a rule matches a file when
some pattern of the rule matches it (the loop breaks on the first hit,
which is `List.any`). -/
def matchRule (m : Matcher) (file : String) (r : Rule) : Bool :=
  r.patterns.any (fun p => m file p)

/-- The label loop of `apply` for a matched rule (lines 282-285): walk the
rule's label names in order; a name whose lowercase form is not yet in
`i_add_labels` (the second component) is appended to `add_labels` (the
first component) and its lowercase form to `i_add_labels`. -/
def addNames : List String → List String × List String → List String × List String
  | [], st => st
  | n :: ns, st =>
    if strLower n ∈ st.2 then addNames ns st
    else addNames ns (st.1 ++ [n], st.2 ++ [strLower n])

/-- The rule loop of `apply` for one file (lines 273-286): try rules in
configuration order; on the first rule with a matching pattern, add its
labels and stop (`break`). -/
def processRules (m : Matcher) (file : String) :
    List Rule → List String × List String → List String × List String
  | [], st => st
  | r :: rest, st =>
    if matchRule m file r then addNames r.labels st
    else processRules m file rest st

/-- The file loop of `apply` (lines 272-286) starting from a given state. -/
def computeAddAux (m : Matcher) (rules : List Rule) :
    List String → List String × List String → List String × List String
  | [], st => st
  | f :: fs, st => computeAddAux m rules fs (processRules m f rules st)

/-- The add-computation of `apply` (lines 268-286): from the changed files
and the rules, the pair `(add_labels, i_add_labels)` of display names to
add and their lowercase identities. -/
def computeAdd (m : Matcher) (rules : List Rule) (files : List String) :
    List String × List String :=
  computeAddAux m rules files ([], [])

/-- The inner label loop of the remove-computation (lines 291-296): a name
whose lowercase form is neither in `i_add_labels` nor already in
`i_remove_labels` is appended to `remove_labels`. -/
def addRemove (iAdd : List String) : List String → List String × List String → List String × List String
  | [], st => st
  | n :: ns, st =>
    if strLower n ∈ iAdd ∨ strLower n ∈ st.2 then addRemove iAdd ns st
    else addRemove iAdd ns (st.1 ++ [n], st.2 ++ [strLower n])

/-- The rule loop of the remove-computation (lines 288-296) from a given
state. -/
def computeRemoveAux (iAdd : List String) : List Rule → List String × List String → List String × List String
  | [], st => st
  | r :: rest, st => computeRemoveAux iAdd rest (addRemove iAdd r.labels st)

/-- The remove-computation of `apply` (lines 288-296): every declared label
identity not in `i_add_labels` is marked for removal, first-seen display
casing kept. -/
def computeRemove (rules : List Rule) (iAdd : List String) :
    List String × List String :=
  computeRemoveAux iAdd rules ([], [])

/-- One side-effecting network call of a run: `Call.delete name` is one
DELETE of `Api.remove_issue_labels` (lines 177-186, one request per label),
`Call.add names` is the single POST of `Api.add_issue_labels`
(lines 168-175). -/
inductive Call where
  | delete (name : String)
  | add (names : List String)
deriving DecidableEq

/-- The filter loop of `_update_issue_labels` (lines 253-259): walk the
remove set; a name whose lowercase form is among the currently attached
lowercase names and not yet seen goes into the `remove` list; every
lowercase form is recorded as seen. -/
def removeFilter (currentLows : List String) : List String → List String × List String → List String × List String
  | [], st => st
  | n :: ns, st =>
    if strLower n ∈ currentLows ∧ strLower n ∉ st.2 then
      removeFilter currentLows ns (st.1 ++ [n], st.2 ++ [strLower n])
    else removeFilter currentLows ns (st.1, st.2 ++ [strLower n])

/-- `GhLabeler._update_issue_labels` (lines 246-263) as the list of network
calls it issues: the current labels are lowered into a membership set
(line 250); if the remove set is nonempty, the filtered `remove` list is
issued as one DELETE per name (lines 252-261); if the add set is nonempty,
one POST with the whole add list is issued (lines 262-263). Note the add
set is not compared against the current labels. -/
def updateIssueLabels (current : List String) (addLabels removeLabels : List String) :
    List Call :=
  let labels := current.map strLower
  let removeCalls :=
    if removeLabels.isEmpty then []
    else
      let remove := (removeFilter labels removeLabels ([], [])).1
      if remove.isEmpty then [] else remove.map Call.delete
  let addCalls := if addLabels.isEmpty then [] else [Call.add addLabels]
  removeCalls ++ addCalls

/-- `GhLabeler.apply` (lines 265-298) as the list of network calls it
issues, given the abstract matcher, the loaded rules, the fetched changed
files and the freshly fetched current label names. -/
def applyCalls (m : Matcher) (rules : List Rule) (files current : List String) :
    List Call :=
  let a := computeAdd m rules files
  let r := computeRemove rules a.2
  updateIssueLabels current a.1 r.1

/-- `GhLabeler.apply` with the debug flag in scope: `self.debug` is stored
by `__init__` (line 200) but never consulted by `apply` or
`_update_issue_labels`, so the flag has no effect on the issued calls. -/
def applyWithDebug (debug : Bool) (m : Matcher) (rules : List Rule)
    (files current : List String) : List Call :=
  applyCalls m rules files current

/-- All label names declared across the rule set, in configuration order
(the strings of `label['labels']` for each rule). -/
def declaredNames : List Rule → List String
  | [] => []
  | r :: rest => r.labels ++ declaredNames rest

/-- The lowercase identities declared across the rule set (the spec's
ManagedLabelSet). -/
def declaredLows (rules : List Rule) : List String :=
  (declaredNames rules).map strLower

/-- The names of the DELETE calls of a call list, in order. -/
def deleteNames : List Call → List String
  | [] => []
  | Call.delete n :: cs => n :: deleteNames cs
  | Call.add _ :: cs => deleteNames cs

/-- Model of the forge's add-labels endpoint (external collaborator): the
POSTed names are attached in order, a name whose case-insensitive identity
is already attached is left as is. -/
def forgeAdd : List String → List String → List String
  | s, [] => s
  | s, n :: ns =>
    if s.any (fun l => strLower l == strLower n) then forgeAdd s ns
    else forgeAdd (s ++ [n]) ns

/-- Model of the forge's label state transition for one call of the code:
a DELETE removes the labels with the named case-insensitive identity, an
add POST attaches the labels not already present. -/
def forgeStep (s : List String) : Call → List String
  | Call.delete name => s.filter (fun l => strLower l != strLower name)
  | Call.add names => forgeAdd s names

/-- The forge's label state after a list of calls. -/
def forgeRun : List String → List Call → List String
  | s, [] => s
  | s, c :: cs => forgeRun (forgeStep s c) cs

/-! Embedding of the configuration load (`GhLabeler.__init__`,
lines 197-230) on already-parsed YAML values, and of the environment
validation of `main` (lines 301-330). -/

/-- A raw already-parsed YAML scalar, as a label entry may hold any value
before validation. -/
inductive RawVal where
  | str (s : String)
  | int (n : Int)
  | boolean (b : Bool)
deriving DecidableEq

/-- A raw rule entry of the configuration file: `labels` values may be of
any YAML type at this point. -/
structure RawRule where
  labels : List RawVal
  patterns : List String
deriving DecidableEq

/-- The raw configuration mapping: the three optional boolean keys and the
`rules` key (absent keys are `none`). -/
structure RawConfig where
  brace_expansion : Option Bool
  extended_glob : Option Bool
  case_insensitive : Option Bool
  rules : Option (List RawRule)
deriving DecidableEq

/-- The `wcmatch` flag set assembled by `_setup_flags` (lines 215-224). -/
structure GlobFlags where
  globstar : Bool
  dotglob : Bool
  negate : Bool
  splitGlob : Bool
  negateall : Bool
  brace : Bool
  extglob : Bool
  minusnegate : Bool
  ignorecase : Bool
deriving DecidableEq

/-- `GhLabeler._setup_flags` (lines 215-224): the baseline flags are always
on; `brace_expansion`, `extended_glob` and `case_insensitive` are read with
`config.get(..., False)`, so an absent key defaults to off and never
fails. -/
def setupFlags (config : RawConfig) : GlobFlags :=
  { globstar := true, dotglob := true, negate := true, splitGlob := true,
    negateall := true,
    brace := config.brace_expansion.getD false,
    extglob := config.extended_glob.getD false,
    minusnegate := config.extended_glob.getD false,
    ignorecase := config.case_insensitive.getD false }

/-- `GhLabeler._validate_str` (lines 226-230): raises `TypeError` on any
non-string value; note it accepts the empty string. This helper is defined
in the source but never invoked by any other method. -/
def validate_str : RawVal → Except String Unit
  | RawVal.str _ => Except.ok ()
  | _ => Except.error "TypeError: key value is not of type str"

/-- The configuration-dependent part of `GhLabeler.__init__`
(lines 197-207) after the YAML text has been fetched and parsed: store the
debug flag, assemble the flags and store `config['rules']` unvalidated; the
only failure is a `KeyError` when `rules` is absent. `_validate_str` is
not called on any label value. -/
def ghInit (debug : Bool) (config : RawConfig) :
    Except String (Bool × GlobFlags × List RawRule) :=
  match config.rules with
  | none => Except.error "KeyError: rules"
  | some rs => Except.ok (debug, setupFlags config, rs)

/-- The debug-input parsing of `main` (lines 304-310). -/
def parseDebug (dbg : String) : Except String Bool :=
  if dbg = "enable" then Except.ok true
  else if dbg = "disable" then Except.ok false
  else Except.error "Unknown value for debug"

/-- Embedding of the Python containment test `c in s` on a string: the
character occurs among the characters of the string. -/
def containsChar (s : String) (c : Char) : Bool := s.data.contains c

/-- Worker for `splitChar`: the accumulated current field is kept in
reverse. -/
def splitCharAux (c : Char) : List Char → List Char → List String
  | [], acc => [⟨acc.reverse⟩]
  | x :: xs, acc =>
    if x = c then ⟨acc.reverse⟩ :: splitCharAux c xs []
    else splitCharAux c xs (x :: acc)

/-- Embedding of Python `s.split(c)` for a one-character separator: split
at every occurrence, keeping empty fields, so the result always has one
more field than there are separator occurrences. -/
def splitChar (c : Char) (s : String) : List String := splitCharAux c s.data []

/-- The repository-identifier parsing of `main` (lines 313-317): the
identifier must be present, nonempty and contain a slash; then
`user, repo = repository.split(sep)` with the slash separator succeeds only
when the split has exactly two parts (otherwise the unpacking raises
`ValueError`). -/
def parseRepository (repository : Option String) :
    Except String (String × String) :=
  match repository with
  | none => Except.error "Could not acquire user name and repository name"
  | some r =>
    if r ≠ "" ∧ containsChar r '/' then
      match splitChar '/' r with
      | [user, repo] => Except.ok (user, repo)
      | _ => Except.error "ValueError: too many values to unpack"
    else Except.error "Could not acquire user name and repository name"

/-- The token check of `main` (lines 320-322): the token environment input
defaults to the empty string and an empty token is fatal. -/
def checkToken (token : String) : Except String Unit :=
  if token = "" then Except.error "No token provided"
  else Except.ok ()

/-- `main` (lines 301-330) over the environment inputs: the three
validations run in source order before the `Api` client is built and
`GhLabeler(...).apply()` runs; an error result is raised before any network
call, an ok result carries the calls the run then issues. -/
def mainRun (dbg : String) (repository : Option String) (token : String)
    (m : Matcher) (rules : List Rule) (files current : List String) :
    Except String (List Call) :=
  match parseDebug dbg with
  | Except.error e => Except.error e
  | Except.ok debug =>
    match parseRepository repository with
    | Except.error e => Except.error e
    | Except.ok _ =>
      match checkToken token with
      | Except.error e => Except.error e
      | Except.ok _ => Except.ok (applyWithDebug debug m rules files current)

/-- The repository-identifier shape the specification demands: an
`owner/name` form with nonempty, slash-free owner and name. Stated from
the specification's words, to be compared with what `parseRepository`
accepts. -/
def specOwnerNameForm (r : String) : Prop :=
  ∃ owner name : String, owner ≠ "" ∧ name ≠ "" ∧
    containsChar owner '/' = false ∧ containsChar name '/' = false ∧
    r = owner ++ "/" ++ name

/-- The acceptance predicate `main` actually implements for the repository
identifier: present, nonempty, containing a slash, and splitting into
exactly two fields. -/
def repoAccepted (repository : Option String) : Bool :=
  match repository with
  | none => false
  | some r => r ≠ "" ∧ containsChar r '/' ∧ (splitChar '/' r).length = 2


/-! Helper lemmas about the environment validation. -/

theorem data_ne_nil (s : String) (h : s ≠ "") : s.data ≠ [] := by
  intro hd
  apply h
  cases s with
  | mk d => simp at hd; rw [hd]

theorem repoAccepted_iff (r : String) :
    repoAccepted (some r) = true ↔
      r ≠ "" ∧ containsChar r '/' = true ∧ (splitChar '/' r).length = 2 := by
  simp [repoAccepted]

theorem parseRepository_error_of (repository : Option String)
    (h : repoAccepted repository = false) :
    ∃ e, parseRepository repository = Except.error e := by
  cases repository with
  | none => exact ⟨_, rfl⟩
  | some r =>
    by_cases h1 : r ≠ "" ∧ containsChar r '/' = true
    · have hlen : (splitChar '/' r).length ≠ 2 := by
        intro hl
        have ht : repoAccepted (some r) = true :=
          (repoAccepted_iff r).2 ⟨h1.1, h1.2, hl⟩
        rw [ht] at h
        cases h
      have hp : parseRepository (some r) =
          (match splitChar '/' r with
           | [user, repo] => Except.ok (user, repo)
           | _ => Except.error "ValueError: too many values to unpack") := by
        simp only [parseRepository, if_pos h1]
      rcases hs : splitChar '/' r with _ | ⟨a, _ | ⟨b, _ | ⟨c, tail⟩⟩⟩
      · rw [hs] at hp
        exact ⟨_, hp⟩
      · rw [hs] at hp
        exact ⟨_, hp⟩
      · exact absurd (by simp [hs]) hlen
      · rw [hs] at hp
        exact ⟨_, hp⟩
    · exact ⟨"Could not acquire user name and repository name",
        by simp only [parseRepository, if_neg h1]⟩

/-! Helper lemmas about the add-computation. -/

theorem addNames_snd_mem (ns : List String) (st : List String × List String)
    (l : String) :
    l ∈ (addNames ns st).2 ↔ l ∈ st.2 ∨ l ∈ ns.map strLower := by
  induction ns generalizing st with
  | nil => simp [addNames]
  | cons n ns ih =>
    by_cases h : strLower n ∈ st.2
    · simp only [addNames, if_pos h, ih, List.map_cons, List.mem_cons]
      constructor
      · rintro (hl | hl)
        · exact Or.inl hl
        · exact Or.inr (Or.inr hl)
      · rintro (hl | rfl | hl)
        · exact Or.inl hl
        · exact Or.inl h
        · exact Or.inr hl
    · simp only [addNames, if_neg h, ih, List.map_cons, List.mem_cons,
        List.mem_append, List.mem_singleton]
      tauto

theorem addNames_fst_sub (ns : List String) (st : List String × List String)
    (x : String) (hx : x ∈ (addNames ns st).1) : x ∈ st.1 ∨ x ∈ ns := by
  induction ns generalizing st with
  | nil => exact Or.inl hx
  | cons n ns ih =>
    simp only [addNames] at hx
    by_cases h : strLower n ∈ st.2
    · rw [if_pos h] at hx
      rcases ih _ hx with h1 | h1
      · exact Or.inl h1
      · exact Or.inr (List.mem_cons_of_mem _ h1)
    · rw [if_neg h] at hx
      rcases ih _ hx with h1 | h1
      · rcases List.mem_append.1 h1 with h2 | h2
        · exact Or.inl h2
        · exact Or.inr (List.mem_cons.2 (Or.inl (List.mem_singleton.1 h2)))
      · exact Or.inr (List.mem_cons_of_mem _ h1)

theorem addNames_snd_map (ns : List String) (st : List String × List String)
    (hst : st.2 = st.1.map strLower) :
    (addNames ns st).2 = (addNames ns st).1.map strLower := by
  induction ns generalizing st with
  | nil => exact hst
  | cons n ns ih =>
    simp only [addNames]
    by_cases h : strLower n ∈ st.2
    · rw [if_pos h]; exact ih _ hst
    · rw [if_neg h]
      exact ih _ (by simp [hst])

theorem addNames_snd_nodup (ns : List String) (st : List String × List String)
    (hst : st.2.Nodup) : (addNames ns st).2.Nodup := by
  induction ns generalizing st with
  | nil => exact hst
  | cons n ns ih =>
    simp only [addNames]
    by_cases h : strLower n ∈ st.2
    · rw [if_pos h]; exact ih _ hst
    · rw [if_neg h]
      refine ih _ ?_
      simp [List.nodup_append, hst, h]

/-- The rule loop with `break` picks exactly the first rule with a matching
pattern. -/
theorem processRules_eq_find (m : Matcher) (file : String) (rules : List Rule)
    (st : List String × List String) :
    processRules m file rules st =
      match rules.find? (fun r => matchRule m file r) with
      | some r => addNames r.labels st
      | none => st := by
  induction rules with
  | nil => rfl
  | cons r rest ih =>
    by_cases h : matchRule m file r
    · simp only [processRules, if_pos h, List.find?_cons_of_pos _ h]
    · simp only [processRules, if_neg h, ih,
        List.find?_cons_of_neg _ (by simpa using h)]

theorem processRules_snd_mem (m : Matcher) (file : String) (rules : List Rule)
    (st : List String × List String) (l : String) :
    l ∈ (processRules m file rules st).2 ↔
      l ∈ st.2 ∨ ∃ r, rules.find? (fun r => matchRule m file r) = some r ∧
        l ∈ r.labels.map strLower := by
  rw [processRules_eq_find]
  cases hf : rules.find? (fun r => matchRule m file r) with
  | none => simp
  | some r => simp [addNames_snd_mem]

theorem processRules_fst_sub (m : Matcher) (file : String) (rules : List Rule)
    (st : List String × List String) (x : String)
    (hx : x ∈ (processRules m file rules st).1) :
    x ∈ st.1 ∨ x ∈ declaredNames rules := by
  rw [processRules_eq_find] at hx
  cases hf : rules.find? (fun r => matchRule m file r) with
  | none => rw [hf] at hx; exact Or.inl hx
  | some r =>
    rw [hf] at hx
    rcases addNames_fst_sub _ _ _ hx with h | h
    · exact Or.inl h
    · right
      have hr : r ∈ rules := List.mem_of_find?_eq_some hf
      clear hf hx
      induction rules with
      | nil => cases hr
      | cons r0 rest ih =>
        rcases List.mem_cons.1 hr with rfl | hr0
        · exact List.mem_append.2 (Or.inl h)
        · exact List.mem_append.2 (Or.inr (ih hr0))

theorem processRules_snd_map (m : Matcher) (file : String) (rules : List Rule)
    (st : List String × List String) (hst : st.2 = st.1.map strLower) :
    (processRules m file rules st).2 = (processRules m file rules st).1.map strLower := by
  rw [processRules_eq_find]
  cases rules.find? (fun r => matchRule m file r) with
  | none => exact hst
  | some r => exact addNames_snd_map _ _ hst

theorem processRules_snd_nodup (m : Matcher) (file : String) (rules : List Rule)
    (st : List String × List String) (hst : st.2.Nodup) :
    (processRules m file rules st).2.Nodup := by
  rw [processRules_eq_find]
  cases rules.find? (fun r => matchRule m file r) with
  | none => exact hst
  | some r => exact addNames_snd_nodup _ _ hst

theorem computeAddAux_snd_mem (m : Matcher) (rules : List Rule)
    (files : List String) (st : List String × List String) (l : String) :
    l ∈ (computeAddAux m rules files st).2 ↔
      l ∈ st.2 ∨ ∃ file ∈ files, ∃ r,
        rules.find? (fun r => matchRule m file r) = some r ∧
        l ∈ r.labels.map strLower := by
  induction files generalizing st with
  | nil => simp [computeAddAux]
  | cons f fs ih =>
    simp only [computeAddAux, ih, processRules_snd_mem, List.mem_cons]
    constructor
    · rintro ((hl | ⟨r, hr, hlr⟩) | ⟨file, hf, r, hr, hlr⟩)
      · exact Or.inl hl
      · exact Or.inr ⟨f, Or.inl rfl, r, hr, hlr⟩
      · exact Or.inr ⟨file, Or.inr hf, r, hr, hlr⟩
    · rintro (hl | ⟨file, (rfl | hf), r, hr, hlr⟩)
      · exact Or.inl (Or.inl hl)
      · exact Or.inl (Or.inr ⟨r, hr, hlr⟩)
      · exact Or.inr ⟨file, hf, r, hr, hlr⟩

theorem computeAddAux_fst_sub (m : Matcher) (rules : List Rule)
    (files : List String) (st : List String × List String) (x : String)
    (hx : x ∈ (computeAddAux m rules files st).1) :
    x ∈ st.1 ∨ x ∈ declaredNames rules := by
  induction files generalizing st with
  | nil => exact Or.inl hx
  | cons f fs ih =>
    rcases ih _ hx with h | h
    · exact processRules_fst_sub m f rules st x h
    · exact Or.inr h

theorem computeAddAux_snd_map (m : Matcher) (rules : List Rule)
    (files : List String) (st : List String × List String)
    (hst : st.2 = st.1.map strLower) :
    (computeAddAux m rules files st).2 = (computeAddAux m rules files st).1.map strLower := by
  induction files generalizing st with
  | nil => exact hst
  | cons f fs ih => exact ih _ (processRules_snd_map m f rules st hst)

theorem computeAddAux_snd_nodup (m : Matcher) (rules : List Rule)
    (files : List String) (st : List String × List String)
    (hst : st.2.Nodup) : (computeAddAux m rules files st).2.Nodup := by
  induction files generalizing st with
  | nil => exact hst
  | cons f fs ih => exact ih _ (processRules_snd_nodup m f rules st hst)

/-- `i_add_labels` is exactly the lowercase image of `add_labels`. -/
theorem computeAdd_snd_map (m : Matcher) (rules : List Rule) (files : List String) :
    (computeAdd m rules files).2 = (computeAdd m rules files).1.map strLower :=
  computeAddAux_snd_map m rules files ([], []) rfl

theorem computeAdd_snd_nodup (m : Matcher) (rules : List Rule) (files : List String) :
    (computeAdd m rules files).2.Nodup :=
  computeAddAux_snd_nodup m rules files ([], []) List.nodup_nil

theorem computeAdd_snd_mem (m : Matcher) (rules : List Rule) (files : List String)
    (l : String) :
    l ∈ (computeAdd m rules files).2 ↔
      ∃ file ∈ files, ∃ r,
        rules.find? (fun r => matchRule m file r) = some r ∧
        l ∈ r.labels.map strLower := by
  rw [computeAdd, computeAddAux_snd_mem]
  simp

theorem computeAdd_fst_sub (m : Matcher) (rules : List Rule) (files : List String)
    (x : String) (hx : x ∈ (computeAdd m rules files).1) :
    x ∈ declaredNames rules := by
  rcases computeAddAux_fst_sub m rules files ([], []) x hx with h | h
  · cases h
  · exact h

theorem computeAdd_snd_sub (m : Matcher) (rules : List Rule) (files : List String)
    (l : String) (hl : l ∈ (computeAdd m rules files).2) :
    l ∈ declaredLows rules := by
  rw [computeAdd_snd_map] at hl
  rcases List.mem_map.1 hl with ⟨x, hx, rfl⟩
  exact List.mem_map.2 ⟨x, computeAdd_fst_sub m rules files x hx, rfl⟩

/-! Helper lemmas about the remove-computation. -/

theorem declaredLows_cons (r : Rule) (rest : List Rule) :
    declaredLows (r :: rest) = r.labels.map strLower ++ declaredLows rest := by
  simp [declaredLows, declaredNames]

theorem addRemove_snd_mem (iAdd : List String) (ns : List String)
    (st : List String × List String) (l : String) :
    l ∈ (addRemove iAdd ns st).2 ↔
      l ∈ st.2 ∨ (l ∈ ns.map strLower ∧ l ∉ iAdd) := by
  induction ns generalizing st with
  | nil => simp [addRemove]
  | cons n ns ih =>
    simp only [addRemove]
    by_cases h : strLower n ∈ iAdd ∨ strLower n ∈ st.2
    · rw [if_pos h]
      simp only [ih, List.map_cons, List.mem_cons]
      constructor
      · rintro (hl | ⟨hl, hla⟩)
        · exact Or.inl hl
        · exact Or.inr ⟨Or.inr hl, hla⟩
      · rintro (hl | ⟨rfl | hl, hla⟩)
        · exact Or.inl hl
        · rcases h with h | h
          · exact absurd h hla
          · exact Or.inl h
        · exact Or.inr ⟨hl, hla⟩
    · rw [if_neg h]
      push_neg at h
      simp only [ih, List.map_cons, List.mem_cons, List.mem_append,
        List.mem_singleton, List.not_mem_nil, or_false]
      constructor
      · rintro ((hl | rfl) | ⟨hl, hla⟩)
        · exact Or.inl hl
        · exact Or.inr ⟨Or.inl rfl, h.1⟩
        · exact Or.inr ⟨Or.inr hl, hla⟩
      · rintro (hl | ⟨rfl | hl, hla⟩)
        · exact Or.inl (Or.inl hl)
        · exact Or.inl (Or.inr rfl)
        · exact Or.inr ⟨hl, hla⟩

theorem addRemove_fst_sub (iAdd : List String) (ns : List String)
    (st : List String × List String) (x : String)
    (hx : x ∈ (addRemove iAdd ns st).1) : x ∈ st.1 ∨ x ∈ ns := by
  induction ns generalizing st with
  | nil => exact Or.inl hx
  | cons n ns ih =>
    simp only [addRemove] at hx
    by_cases h : strLower n ∈ iAdd ∨ strLower n ∈ st.2
    · rw [if_pos h] at hx
      rcases ih _ hx with h1 | h1
      · exact Or.inl h1
      · exact Or.inr (List.mem_cons_of_mem _ h1)
    · rw [if_neg h] at hx
      rcases ih _ hx with h1 | h1
      · rcases List.mem_append.1 h1 with h2 | h2
        · exact Or.inl h2
        · exact Or.inr (List.mem_cons.2 (Or.inl (List.mem_singleton.1 h2)))
      · exact Or.inr (List.mem_cons_of_mem _ h1)

theorem addRemove_snd_map (iAdd : List String) (ns : List String)
    (st : List String × List String) (hst : st.2 = st.1.map strLower) :
    (addRemove iAdd ns st).2 = (addRemove iAdd ns st).1.map strLower := by
  induction ns generalizing st with
  | nil => exact hst
  | cons n ns ih =>
    simp only [addRemove]
    by_cases h : strLower n ∈ iAdd ∨ strLower n ∈ st.2
    · rw [if_pos h]; exact ih _ hst
    · rw [if_neg h]; exact ih _ (by simp [hst])

theorem addRemove_snd_nodup (iAdd : List String) (ns : List String)
    (st : List String × List String) (hst : st.2.Nodup) :
    (addRemove iAdd ns st).2.Nodup := by
  induction ns generalizing st with
  | nil => exact hst
  | cons n ns ih =>
    simp only [addRemove]
    by_cases h : strLower n ∈ iAdd ∨ strLower n ∈ st.2
    · rw [if_pos h]; exact ih _ hst
    · rw [if_neg h]
      refine ih _ ?_
      push_neg at h
      simp [List.nodup_append, hst, h.2]

theorem computeRemoveAux_snd_mem (iAdd : List String) (rules : List Rule)
    (st : List String × List String) (l : String) :
    l ∈ (computeRemoveAux iAdd rules st).2 ↔
      l ∈ st.2 ∨ (l ∈ declaredLows rules ∧ l ∉ iAdd) := by
  induction rules generalizing st with
  | nil => simp [computeRemoveAux, declaredLows, declaredNames]
  | cons r rest ih =>
    simp only [computeRemoveAux, ih, addRemove_snd_mem, declaredLows_cons,
      List.mem_append]
    tauto

theorem computeRemoveAux_fst_sub (iAdd : List String) (rules : List Rule)
    (st : List String × List String) (x : String)
    (hx : x ∈ (computeRemoveAux iAdd rules st).1) :
    x ∈ st.1 ∨ x ∈ declaredNames rules := by
  induction rules generalizing st with
  | nil => exact Or.inl hx
  | cons r rest ih =>
    rcases ih _ hx with h | h
    · rcases addRemove_fst_sub iAdd r.labels st x h with h1 | h1
      · exact Or.inl h1
      · exact Or.inr (List.mem_append.2 (Or.inl h1))
    · exact Or.inr (List.mem_append.2 (Or.inr h))

theorem computeRemoveAux_snd_map (iAdd : List String) (rules : List Rule)
    (st : List String × List String) (hst : st.2 = st.1.map strLower) :
    (computeRemoveAux iAdd rules st).2 = (computeRemoveAux iAdd rules st).1.map strLower := by
  induction rules generalizing st with
  | nil => exact hst
  | cons r rest ih => exact ih _ (addRemove_snd_map iAdd r.labels st hst)

theorem computeRemoveAux_snd_nodup (iAdd : List String) (rules : List Rule)
    (st : List String × List String) (hst : st.2.Nodup) :
    (computeRemoveAux iAdd rules st).2.Nodup := by
  induction rules generalizing st with
  | nil => exact hst
  | cons r rest ih => exact ih _ (addRemove_snd_nodup iAdd r.labels st hst)

/-- `i_remove_labels` is exactly the lowercase image of `remove_labels`. -/
theorem computeRemove_snd_map (rules : List Rule) (iAdd : List String) :
    (computeRemove rules iAdd).2 = (computeRemove rules iAdd).1.map strLower :=
  computeRemoveAux_snd_map iAdd rules ([], []) rfl

theorem computeRemove_snd_nodup (rules : List Rule) (iAdd : List String) :
    (computeRemove rules iAdd).2.Nodup :=
  computeRemoveAux_snd_nodup iAdd rules ([], []) List.nodup_nil

/-- The removal identities are exactly the declared identities outside the
add set. -/
theorem computeRemove_snd_mem (rules : List Rule) (iAdd : List String) (l : String) :
    l ∈ (computeRemove rules iAdd).2 ↔ l ∈ declaredLows rules ∧ l ∉ iAdd := by
  rw [computeRemove, computeRemoveAux_snd_mem]
  simp

theorem computeRemove_fst_sub (rules : List Rule) (iAdd : List String)
    (x : String) (hx : x ∈ (computeRemove rules iAdd).1) :
    x ∈ declaredNames rules := by
  rcases computeRemoveAux_fst_sub iAdd rules ([], []) x hx with h | h
  · cases h
  · exact h

/-! Helper lemmas about the filter loop of the update step. -/

theorem removeFilter_snd (cur : List String) (ns : List String)
    (st : List String × List String) :
    (removeFilter cur ns st).2 = st.2 ++ ns.map strLower := by
  induction ns generalizing st with
  | nil => simp [removeFilter]
  | cons n ns ih =>
    simp only [removeFilter]
    by_cases h : strLower n ∈ cur ∧ strLower n ∉ st.2
    · rw [if_pos h, ih]; simp
    · rw [if_neg h, ih]; simp

theorem removeFilter_fst_sub (cur : List String) (ns : List String)
    (st : List String × List String) (x : String)
    (hx : x ∈ (removeFilter cur ns st).1) :
    x ∈ st.1 ∨ (x ∈ ns ∧ strLower x ∈ cur) := by
  induction ns generalizing st with
  | nil => exact Or.inl hx
  | cons n ns ih =>
    simp only [removeFilter] at hx
    by_cases h : strLower n ∈ cur ∧ strLower n ∉ st.2
    · rw [if_pos h] at hx
      rcases ih _ hx with h1 | h1
      · rcases List.mem_append.1 h1 with h2 | h2
        · exact Or.inl h2
        · rcases List.mem_singleton.1 h2 with rfl
          exact Or.inr ⟨List.mem_cons_self _ _, h.1⟩
      · exact Or.inr ⟨List.mem_cons_of_mem _ h1.1, h1.2⟩
    · rw [if_neg h] at hx
      rcases ih _ hx with h1 | h1
      · exact Or.inl h1
      · exact Or.inr ⟨List.mem_cons_of_mem _ h1.1, h1.2⟩

/-- Completeness of the filter loop: an identity that is seen, attached and
recorded in the `remove` list stays recorded; hence every remove identity
that is attached ends up in the issued `remove` list. -/
theorem removeFilter_complete (cur : List String) (ns : List String)
    (st : List String × List String)
    (hinv : ∀ low, low ∈ st.2 → low ∈ cur → low ∈ st.1.map strLower)
    (low : String) (hlow : low ∈ (removeFilter cur ns st).2)
    (hcur : low ∈ cur) : low ∈ (removeFilter cur ns st).1.map strLower := by
  induction ns generalizing st with
  | nil => exact hinv low hlow hcur
  | cons n ns ih =>
    simp only [removeFilter] at hlow ⊢
    by_cases h : strLower n ∈ cur ∧ strLower n ∉ st.2
    · rw [if_pos h] at hlow ⊢
      refine ih _ ?_ hlow
      intro l hl hlc
      rcases List.mem_append.1 hl with h1 | h1
      · exact List.mem_map.2 (by
          rcases List.mem_map.1 (hinv l h1 hlc) with ⟨y, hy, hly⟩
          exact ⟨y, List.mem_append.2 (Or.inl hy), hly⟩)
      · rcases List.mem_singleton.1 h1 with rfl
        exact List.mem_map.2 ⟨n, List.mem_append.2 (Or.inr (List.mem_singleton.2 rfl)), rfl⟩
    · rw [if_neg h] at hlow ⊢
      refine ih _ ?_ hlow
      intro l hl hlc
      rcases List.mem_append.1 hl with h1 | h1
      · exact hinv l h1 hlc
      · rcases List.mem_singleton.1 h1 with rfl
        rcases not_and_or.1 h with h2 | h2
        · exact absurd hlc h2
        · exact hinv _ (not_not.1 h2) hlc

theorem removeFilter_fst_nodup (cur : List String) (ns : List String)
    (st : List String × List String)
    (hnd : (st.1.map strLower).Nodup)
    (hsub : ∀ x ∈ st.1.map strLower, x ∈ st.2) :
    ((removeFilter cur ns st).1.map strLower).Nodup := by
  induction ns generalizing st with
  | nil => exact hnd
  | cons n ns ih =>
    simp only [removeFilter]
    by_cases h : strLower n ∈ cur ∧ strLower n ∉ st.2
    · rw [if_pos h]
      refine ih _ ?_ ?_
      · have hn : strLower n ∉ st.1.map strLower := fun hc => h.2 (hsub _ hc)
        simp [List.nodup_append, hnd, hn]
      · intro x hx
        simp only [List.map_append, List.mem_append, List.map_cons,
          List.map_nil, List.mem_singleton, List.mem_cons, List.not_mem_nil,
          or_false] at hx ⊢
        rcases hx with hx | rfl
        · exact Or.inl (hsub _ hx)
        · exact Or.inr rfl
    · rw [if_neg h]
      refine ih _ hnd ?_
      intro x hx
      exact List.mem_append.2 (Or.inl (hsub _ hx))

/-- If no remove identity is attached, the filter loop keeps nothing. -/
theorem removeFilter_nil (cur : List String) (ns : List String)
    (h : ∀ n ∈ ns, strLower n ∉ cur) :
    (removeFilter cur ns ([], [])).1 = [] := by
  rw [List.eq_nil_iff_forall_not_mem]
  intro x hx
  rcases removeFilter_fst_sub cur ns ([], []) x hx with h1 | h1
  · cases h1
  · exact h x h1.1 h1.2

/-- The update step's calls, unconditionally: the filtered remove list as
one DELETE per name, then one add POST when the add set is nonempty. -/
theorem updateIssueLabels_eq (current : List String) (addLabels removeLabels : List String) :
    updateIssueLabels current addLabels removeLabels =
      ((removeFilter (current.map strLower) removeLabels ([], [])).1).map Call.delete
        ++ (if addLabels.isEmpty then [] else [Call.add addLabels]) := by
  rw [updateIssueLabels]
  by_cases hr : removeLabels.isEmpty
  · rcases List.isEmpty_iff.1 hr with rfl
    simp [removeFilter]
  · simp only [if_neg hr]
    by_cases he : (removeFilter (current.map strLower) removeLabels ([], [])).1.isEmpty
    · rw [if_pos he, List.isEmpty_iff.1 he]
      simp
    · rw [if_neg he]

/-! Helper lemmas about the calls of a run. -/

theorem deleteNames_append (a b : List Call) :
    deleteNames (a ++ b) = deleteNames a ++ deleteNames b := by
  induction a with
  | nil => rfl
  | cons c cs ih => cases c <;> simp [deleteNames, ih]

theorem deleteNames_map_delete (l : List String) :
    deleteNames (l.map Call.delete) = l := by
  induction l with
  | nil => rfl
  | cons n ns ih => simp [deleteNames, ih]

theorem deleteNames_addIf (b : Bool) (A : List String) :
    deleteNames (if b then [] else [Call.add A]) = [] := by
  cases b <;> simp [deleteNames]

/-- The DELETEd names of a run are exactly the filtered remove list. -/
theorem deleteNames_applyCalls (m : Matcher) (rules : List Rule)
    (files current : List String) :
    deleteNames (applyCalls m rules files current) =
      (removeFilter (current.map strLower)
        (computeRemove rules (computeAdd m rules files).2).1 ([], [])).1 := by
  rw [applyCalls, updateIssueLabels_eq, deleteNames_append,
    deleteNames_map_delete, deleteNames_addIf, List.append_nil]

/-! Helper lemmas about the forge state model. -/

theorem forgeRun_append (s : List String) (a b : List Call) :
    forgeRun s (a ++ b) = forgeRun (forgeRun s a) b := by
  induction a generalizing s with
  | nil => rfl
  | cons c cs ih => simp [forgeRun, ih]

theorem mem_lows_filter_ne (s : List String) (d low : String) :
    low ∈ (s.filter (fun l => strLower l != strLower d)).map strLower ↔
      low ∈ s.map strLower ∧ low ≠ strLower d := by
  simp only [List.mem_map, List.mem_filter, bne_iff_ne, ne_eq]
  constructor
  · rintro ⟨l, ⟨hl, hne⟩, rfl⟩
    exact ⟨⟨l, hl, rfl⟩, hne⟩
  · rintro ⟨⟨l, hl, rfl⟩, hne⟩
    exact ⟨l, ⟨hl, hne⟩, rfl⟩

theorem forgeRun_deletes_mem (dels : List String) (s : List String) (low : String) :
    low ∈ (forgeRun s (dels.map Call.delete)).map strLower ↔
      low ∈ s.map strLower ∧ low ∉ dels.map strLower := by
  induction dels generalizing s with
  | nil => simp [forgeRun]
  | cons d ds ih =>
    simp only [List.map_cons, forgeRun, forgeStep, ih, mem_lows_filter_ne,
      List.mem_cons]
    push_neg
    tauto

theorem forgeAdd_mem (ns : List String) (s : List String) (low : String) :
    low ∈ (forgeAdd s ns).map strLower ↔
      low ∈ s.map strLower ∨ low ∈ ns.map strLower := by
  induction ns generalizing s with
  | nil => simp [forgeAdd]
  | cons n ns ih =>
    simp only [forgeAdd, List.map_cons, List.mem_cons]
    by_cases h : s.any (fun l => strLower l == strLower n)
    · rw [if_pos h]
      rw [List.any_eq_true] at h
      rcases h with ⟨l, hl, hln⟩
      rw [beq_iff_eq] at hln
      rw [ih]
      constructor
      · rintro (hs | hs)
        · exact Or.inl hs
        · exact Or.inr (Or.inr hs)
      · rintro (hs | rfl | hs)
        · exact Or.inl hs
        · exact Or.inl (List.mem_map.2 ⟨l, hl, hln⟩)
        · exact Or.inr hs
    · rw [if_neg h, ih]
      simp only [List.map_append, List.mem_append, List.map_cons,
        List.map_nil, List.mem_singleton, List.mem_cons, List.not_mem_nil,
        or_false]
      tauto

/-- After the first run's calls have been applied to the forge state, no
remove identity is attached any more. -/
theorem applyCalls_run_clears (m : Matcher) (rules : List Rule)
    (files current : List String) (n : String)
    (hn : n ∈ (computeRemove rules (computeAdd m rules files).2).1) :
    strLower n ∉
      (forgeRun current (applyCalls m rules files current)).map strLower := by
  have hlowR : strLower n ∈ (computeRemove rules (computeAdd m rules files).2).2 := by
    rw [computeRemove_snd_map]
    exact List.mem_map.2 ⟨n, hn, rfl⟩
  have hnotA : strLower n ∉ (computeAdd m rules files).2 :=
    ((computeRemove_snd_mem rules _ _).1 hlowR).2
  rw [computeAdd_snd_map] at hnotA
  have hdel : strLower n ∈ current.map strLower →
      strLower n ∈ ((removeFilter (current.map strLower)
        (computeRemove rules (computeAdd m rules files).2).1 ([], [])).1).map strLower := by
    intro hc
    refine removeFilter_complete (current.map strLower) _ ([], []) ?_ _ ?_ hc
    · intro l hl
      cases hl
    · rw [removeFilter_snd]
      simpa using List.mem_map.2 ⟨n, hn, rfl⟩
  have hcalls1 : applyCalls m rules files current =
      ((removeFilter (current.map strLower)
          (computeRemove rules (computeAdd m rules files).2).1 ([], [])).1).map Call.delete
        ++ (if (computeAdd m rules files).1.isEmpty then []
            else [Call.add (computeAdd m rules files).1]) := by
    rw [applyCalls, updateIssueLabels_eq]
  rw [hcalls1, forgeRun_append]
  by_cases hAe : (computeAdd m rules files).1.isEmpty
  · rw [if_pos hAe]
    intro hmem
    rw [show ∀ s, forgeRun s ([] : List Call) = s from fun _ => rfl] at hmem
    rw [forgeRun_deletes_mem] at hmem
    exact absurd (hdel hmem.1) hmem.2
  · rw [if_neg hAe]
    intro hmem
    rw [show ∀ s A, forgeRun s [Call.add A] = forgeAdd s A from fun _ _ => rfl] at hmem
    rw [forgeAdd_mem, forgeRun_deletes_mem] at hmem
    rcases hmem with ⟨h1, h2⟩ | h3
    · exact absurd (hdel h1) h2
    · exact hnotA h3

/-- The second of two immediately consecutive runs issues no DELETE call
and re-issues the add POST exactly when the computed add set is
nonempty. -/
theorem applyCalls_second_run (m : Matcher) (rules : List Rule)
    (files current : List String) :
    applyCalls m rules files
        (forgeRun current (applyCalls m rules files current)) =
      if (computeAdd m rules files).1.isEmpty then []
      else [Call.add (computeAdd m rules files).1] := by
  have hnil : (removeFilter
      ((forgeRun current (applyCalls m rules files current)).map strLower)
      (computeRemove rules (computeAdd m rules files).2).1 ([], [])).1 = [] :=
    removeFilter_nil _ _ (fun n hn => applyCalls_run_clears m rules files current n hn)
  conv_lhs => rw [applyCalls, updateIssueLabels_eq]
  rw [hnil]
  simp

/-- Adding labels whose identities are all already attached leaves the
forge state unchanged. -/
theorem forgeAdd_id (s ns : List String)
    (h : ∀ n ∈ ns, strLower n ∈ s.map strLower) : forgeAdd s ns = s := by
  induction ns with
  | nil => rfl
  | cons n ns ih =>
    have hn : s.any (fun l => strLower l == strLower n) = true := by
      rcases List.mem_map.1 (h n (List.mem_cons_self n ns)) with ⟨l, hl, hln⟩
      exact List.any_eq_true.2 ⟨l, hl, beq_iff_eq.2 hln⟩
    simp only [forgeAdd, if_pos hn]
    exact ih (fun x hx => h x (List.mem_cons_of_mem _ hx))

/-- After the first run, every identity of the computed add set is
attached. -/
theorem applyCalls_run_adds (m : Matcher) (rules : List Rule)
    (files current : List String) (a : String)
    (ha : a ∈ (computeAdd m rules files).1)
    (hA : ¬(computeAdd m rules files).1.isEmpty) :
    strLower a ∈
      (forgeRun current (applyCalls m rules files current)).map strLower := by
  have hcalls1 : applyCalls m rules files current =
      ((removeFilter (current.map strLower)
          (computeRemove rules (computeAdd m rules files).2).1 ([], [])).1).map Call.delete
        ++ (if (computeAdd m rules files).1.isEmpty then []
            else [Call.add (computeAdd m rules files).1]) := by
    rw [applyCalls, updateIssueLabels_eq]
  rw [hcalls1, forgeRun_append, if_neg hA]
  rw [show ∀ s A, forgeRun s [Call.add A] = forgeAdd s A from fun _ _ => rfl]
  rw [forgeAdd_mem]
  exact Or.inr (List.mem_map.2 ⟨a, ha, rfl⟩)

/-- The second of two immediately consecutive runs leaves the forge's label
state unchanged: its only possible call re-adds labels that are already
attached. -/
theorem applyCalls_second_run_state (m : Matcher) (rules : List Rule)
    (files current : List String) :
    forgeRun (forgeRun current (applyCalls m rules files current))
        (applyCalls m rules files
          (forgeRun current (applyCalls m rules files current)))
      = forgeRun current (applyCalls m rules files current) := by
  rw [applyCalls_second_run]
  by_cases hA : (computeAdd m rules files).1.isEmpty
  · rw [if_pos hA]
    rfl
  · rw [if_neg hA]
    rw [show ∀ s A, forgeRun s [Call.add A] = forgeAdd s A from fun _ _ => rfl]
    exact forgeAdd_id _ _
      (fun a ha => applyCalls_run_adds m rules files current a ha hA)

/-! The claims. -/

/-- C1, corrected at: an update run with one removable attached label and
one newly desired label issues two calls (a DELETE and an add POST), never
a single full replace, refuting the at-most-one-call claim. -/
theorem claim1_counterexample :
    applyCalls (fun f p => f == p) [⟨["stale"], ["p"]⟩, ⟨["docs"], ["d"]⟩]
        ["d"] ["stale"] = [Call.delete "stale", Call.add ["docs"]] ∧
    ¬((applyCalls (fun f p => f == p) [⟨["stale"], ["p"]⟩, ⟨["docs"], ["d"]⟩]
        ["d"] ["stale"]).length ≤ 1) := by decide

/-- C1, amended: the update step never issues a full replace; it issues one
DELETE per distinct removable attached identity (each DELETEd name being
currently attached, with pairwise distinct lowercase identities) followed
by at most one add POST, which is issued whenever the computed add set is
nonempty regardless of the current state. -/
theorem claim1_amended (m : Matcher) (rules : List Rule)
    (files current : List String) :
    applyCalls m rules files current =
      ((removeFilter (current.map strLower)
          (computeRemove rules (computeAdd m rules files).2).1 ([], [])).1).map Call.delete
        ++ (if (computeAdd m rules files).1.isEmpty then []
            else [Call.add (computeAdd m rules files).1]) ∧
    (∀ n ∈ deleteNames (applyCalls m rules files current),
        strLower n ∈ current.map strLower) ∧
    ((deleteNames (applyCalls m rules files current)).map strLower).Nodup := by
  refine ⟨by rw [applyCalls, updateIssueLabels_eq], ?_, ?_⟩
  · intro n hn
    rw [deleteNames_applyCalls] at hn
    rcases removeFilter_fst_sub _ _ _ _ hn with h | h
    · cases h
    · exact h.2
  · rw [deleteNames_applyCalls]
    exact removeFilter_fst_nodup _ _ _ (by simp) (by simp)

/-- C1, witness for the amended theorem at a concrete run. -/
theorem claim1_witness :
    strLower "a" ∈ (["a"].map strLower) :=
  (claim1_amended (fun f p => f == p) [⟨["a"], ["p"]⟩] [] ["a"]).2.1 "a" (by decide)

/-- C2: with the debug flag enabled the run still issues the add POST for
the computed labels, because `self.debug` is stored (line 200) but never
consulted by `apply` or `_update_issue_labels`; the calls are identical
with the flag disabled. -/
theorem claim2_debug_ignored :
    applyWithDebug true (fun f p => f == p) [⟨["docs"], ["d"]⟩] ["d"] []
      = [Call.add ["docs"]] ∧
    applyWithDebug true (fun f p => f == p) [⟨["docs"], ["d"]⟩] ["d"] []
      = applyWithDebug false (fun f p => f == p) [⟨["docs"], ["d"]⟩] ["d"] [] := by
  exact ⟨by decide, rfl⟩

/-- C3, corrected at: running the reconcile twice with no external change,
the second run still issues the add POST (re-adding the already attached
label), so the second run does not issue zero calls. -/
theorem claim3_counterexample :
    forgeRun [] (applyCalls (fun f p => f == p) [⟨["docs"], ["d"]⟩] ["d"] [])
      = ["docs"] ∧
    applyCalls (fun f p => f == p) [⟨["docs"], ["d"]⟩] ["d"]
        (forgeRun [] (applyCalls (fun f p => f == p) [⟨["docs"], ["d"]⟩] ["d"] []))
      = [Call.add ["docs"]] ∧
    applyCalls (fun f p => f == p) [⟨["docs"], ["d"]⟩] ["d"]
        (forgeRun [] (applyCalls (fun f p => f == p) [⟨["docs"], ["d"]⟩] ["d"] []))
      ≠ [] := by decide

/-- C3, amended: the second of two immediately consecutive runs with no
intervening external change issues zero DELETE calls and leaves the label
state unchanged; it still issues exactly the one add POST whenever the
computed add set is nonempty (re-adding already attached labels), so the
second run is free of calls only when the add set is empty. -/
theorem claim3_amended (m : Matcher) (rules : List Rule)
    (files current : List String) :
    applyCalls m rules files
        (forgeRun current (applyCalls m rules files current)) =
      (if (computeAdd m rules files).1.isEmpty then []
       else [Call.add (computeAdd m rules files).1]) ∧
    deleteNames (applyCalls m rules files
        (forgeRun current (applyCalls m rules files current))) = [] ∧
    forgeRun (forgeRun current (applyCalls m rules files current))
        (applyCalls m rules files
          (forgeRun current (applyCalls m rules files current)))
      = forgeRun current (applyCalls m rules files current) := by
  refine ⟨applyCalls_second_run m rules files current, ?_,
    applyCalls_second_run_state m rules files current⟩
  rw [applyCalls_second_run]
  by_cases h : (computeAdd m rules files).1.isEmpty
  · rw [if_pos h]; rfl
  · rw [if_neg h]; rfl

/-- C4: the add identities and the remove identities are disjoint, and
together they are exactly the identities declared across the rule set. -/
theorem claim4_partition (m : Matcher) (rules : List Rule) (files : List String) :
    (∀ l, ¬(l ∈ (computeAdd m rules files).2 ∧
        l ∈ (computeRemove rules (computeAdd m rules files).2).2)) ∧
    (∀ l, (l ∈ (computeAdd m rules files).2 ∨
        l ∈ (computeRemove rules (computeAdd m rules files).2).2) ↔
        l ∈ declaredLows rules) := by
  constructor
  · rintro l ⟨h1, h2⟩
    exact ((computeRemove_snd_mem rules _ l).1 h2).2 h1
  · intro l
    constructor
    · rintro (h | h)
      · exact computeAdd_snd_sub m rules files l h
      · exact ((computeRemove_snd_mem rules _ l).1 h).1
    · intro h
      by_cases hA : l ∈ (computeAdd m rules files).2
      · exact Or.inl hA
      · exact Or.inr ((computeRemove_snd_mem rules _ l).2 ⟨h, hA⟩)

/-- C4, witness at a concrete rule set. -/
theorem claim4_witness :
    strLower "Docs" ∈ declaredLows [⟨["Docs"], ["d"]⟩] :=
  ((claim4_partition (fun f p => f == p) [⟨["Docs"], ["d"]⟩] ["d"]).2
    (strLower "Docs")).1 (Or.inl (by decide))

/-- C5: an identity is added exactly when some changed file's first
matching rule (in configuration order) declares it; labels of later
matching rules contribute nothing for that file, while a different file
whose first matching rule is a later rule still contributes that rule's
labels. -/
theorem claim5_first_match (m : Matcher) (rules : List Rule)
    (files : List String) (l : String) :
    l ∈ (computeAdd m rules files).2 ↔
      ∃ file ∈ files, ∃ r,
        rules.find? (fun r => matchRule m file r) = some r ∧
        l ∈ r.labels.map strLower :=
  computeAdd_snd_mem m rules files l

/-- C5, witness: a file matching only the second rule contributes that
rule's label. -/
theorem claim5_witness :
    strLower "core" ∈
      (computeAdd (fun f p => f == p)
        [⟨["docs"], ["d"]⟩, ⟨["core"], ["s"]⟩] ["x", "s"]).2 :=
  (claim5_first_match (fun f p => f == p)
      [⟨["docs"], ["d"]⟩, ⟨["core"], ["s"]⟩] ["x", "s"] (strLower "core")).2
    ⟨"s", by decide, ⟨["core"], ["s"]⟩, by decide, by decide⟩

/-- C6, corrected at: with `Bug` attached and `bug` declared and desired,
the run still issues an add POST containing `bug`, so the addition is not
resolved against the attached identity of different casing. -/
theorem claim6_counterexample :
    applyCalls (fun f p => f == p) [⟨["bug"], ["a"]⟩] ["a"] ["Bug"]
      = [Call.add ["bug"]] ∧
    strLower "bug" = strLower "Bug" := by decide

/-- C6, amended: lowercase identity governs the computed sets and the
removal step: the add and remove sets carry pairwise distinct identities
with display casings taken from the configuration, and DELETEs are
resolved case-insensitively against the current labels with at most one
DELETE per identity; the add POST, however, is not filtered against the
current labels, so a desired label attached under another casing is still
sent. -/
theorem claim6_amended (m : Matcher) (rules : List Rule)
    (files current : List String) :
    ((computeAdd m rules files).1.map strLower).Nodup ∧
    (((computeRemove rules (computeAdd m rules files).2).1).map strLower).Nodup ∧
    (∀ n ∈ (computeAdd m rules files).1, n ∈ declaredNames rules) ∧
    (∀ n ∈ (computeRemove rules (computeAdd m rules files).2).1,
        n ∈ declaredNames rules) ∧
    (∀ n ∈ deleteNames (applyCalls m rules files current),
        n ∈ (computeRemove rules (computeAdd m rules files).2).1 ∧
        strLower n ∈ current.map strLower) ∧
    ((deleteNames (applyCalls m rules files current)).map strLower).Nodup := by
  refine ⟨?_, ?_, ?_, ?_, ?_, ?_⟩
  · rw [← computeAdd_snd_map]
    exact computeAdd_snd_nodup m rules files
  · rw [← computeRemove_snd_map]
    exact computeRemove_snd_nodup rules _
  · exact fun n hn => computeAdd_fst_sub m rules files n hn
  · exact fun n hn => computeRemove_fst_sub rules _ n hn
  · intro n hn
    rw [deleteNames_applyCalls] at hn
    rcases removeFilter_fst_sub _ _ _ _ hn with h | h
    · cases h
    · exact h
  · rw [deleteNames_applyCalls]
    exact removeFilter_fst_nodup _ _ _ (by simp) (by simp)

/-- C6, witness: the DELETE for `bug` resolves case-insensitively against
the attached `Bug`. -/
theorem claim6_witness :
    strLower "bug" ∈ (["Bug"].map strLower) :=
  ((claim6_amended (fun f p => f == p) [⟨["bug"], ["x"]⟩] [] ["Bug"]).2.2.2.2.1
    "bug" (by decide)).2

/-- C7: a configuration whose rule carries a non-string label name loads
successfully (no ConfigError at load time), because `_validate_str` is
never invoked; the validator itself would reject the value, and even the
validator accepts an empty-string label. -/
theorem claim7_load_unvalidated :
    ghInit false ⟨none, none, none, some [⟨[RawVal.int 42], ["*"]⟩]⟩ =
      Except.ok (false,
        setupFlags ⟨none, none, none, some [⟨[RawVal.int 42], ["*"]⟩]⟩,
        [⟨[RawVal.int 42], ["*"]⟩]) ∧
    validate_str (RawVal.int 42) =
      Except.error "TypeError: key value is not of type str" ∧
    validate_str (RawVal.str "") = Except.ok () := by
  exact ⟨rfl, rfl, rfl⟩

/-- C8: every DELETEd name and every name inside an add POST has an
identity declared in the rule set, so labels outside the managed set are
never touched. -/
theorem claim8_frame (m : Matcher) (rules : List Rule)
    (files current : List String) :
    (∀ n ∈ deleteNames (applyCalls m rules files current),
        strLower n ∈ declaredLows rules) ∧
    (∀ ns, Call.add ns ∈ applyCalls m rules files current →
        ∀ n ∈ ns, strLower n ∈ declaredLows rules) := by
  constructor
  · intro n hn
    rw [deleteNames_applyCalls] at hn
    rcases removeFilter_fst_sub _ _ _ _ hn with h | h
    · cases h
    · exact List.mem_map.2 ⟨n, computeRemove_fst_sub _ _ _ h.1, rfl⟩
  · intro ns hns n hn
    rw [applyCalls, updateIssueLabels_eq] at hns
    rcases List.mem_append.1 hns with h | h
    · rcases List.mem_map.1 h with ⟨x, _, hx⟩
      cases hx
    · by_cases hA : (computeAdd m rules files).1.isEmpty
      · rw [if_pos hA] at h
        cases h
      · rw [if_neg hA] at h
        have heq := List.mem_singleton.1 h
        have hns' : ns = (computeAdd m rules files).1 := by
          injection heq
        rw [hns'] at hn
        exact List.mem_map.2 ⟨n, computeAdd_fst_sub m rules files n hn, rfl⟩

/-- C8, witness: the DELETEd name of a concrete run is managed. -/
theorem claim8_witness :
    strLower "x" ∈ declaredLows [⟨["x"], ["p"]⟩] :=
  (claim8_frame (fun f p => f == p) [⟨["x"], ["p"]⟩] [] ["x"]).1 "x" (by decide)

/-- C9, corrected at: the identifier of the form owner-slash-empty-name is
not of the owner/name shape, yet the run passes validation and proceeds to
issue a network call. -/
theorem claim9_counterexample :
    ¬ specOwnerNameForm "a/" ∧
    mainRun "disable" (some "a/") "tok" (fun _ _ => false)
        [⟨["x"], ["p"]⟩] [] ["x"] = Except.ok [Call.delete "x"] := by
  constructor
  · rintro ⟨o, n, ho, hn, _, _, heq⟩
    have hd := congrArg String.data heq
    rw [String.data_append, String.data_append] at hd
    have hd' : o.data ++ ['/'] ++ n.data = ['a', '/'] := hd.symm
    have hlen := congrArg List.length hd'
    rw [List.length_append, List.length_append] at hlen
    have e1 : (['/'] : List Char).length = 1 := rfl
    have e2 : (['a', '/'] : List Char).length = 2 := rfl
    rw [e1, e2] at hlen
    have h1 : 0 < o.data.length := List.length_pos.2 (data_ne_nil o ho)
    have h2 : 0 < n.data.length := List.length_pos.2 (data_ne_nil n hn)
    omega
  · rfl

/-- C9, amended: the run fails before any network call whenever the
repository identifier is rejected by the code's acceptance test (absent,
empty, slashless, or not splitting into exactly two fields) or the
credential is empty; identifiers with exactly one slash are accepted even
when owner or name is empty. -/
theorem claim9_amended (dbg : String) (repository : Option String)
    (token : String) (m : Matcher) (rules : List Rule)
    (files current : List String)
    (h : repoAccepted repository = false ∨ token = "") :
    ∃ e, mainRun dbg repository token m rules files current = Except.error e := by
  cases hd : parseDebug dbg with
  | error e => exact ⟨e, by simp only [mainRun, hd]⟩
  | ok b =>
    rcases h with h | h
    · rcases parseRepository_error_of repository h with ⟨e, he⟩
      exact ⟨e, by simp only [mainRun, hd, he]⟩
    · cases hr : parseRepository repository with
      | error e => exact ⟨e, by simp only [mainRun, hd, hr]⟩
      | ok p =>
        refine ⟨"No token provided", ?_⟩
        simp only [mainRun, hd, hr, checkToken, if_pos h]

/-- C9, witness: a slashless identifier fails the run. -/
theorem claim9_witness :
    ∃ e, mainRun "disable" (some "ab") "tok" (fun _ _ => false) [] [] []
      = Except.error e :=
  claim9_amended "disable" (some "ab") "tok" (fun _ _ => false) [] [] []
    (Or.inl (by decide))

/-- C10: a DELETE is issued only for remove names whose lowercase identity
is currently attached, with at most one DELETE per identity, and no DELETE
at all when no remove identity is attached. -/
theorem claim10_filter (current addLabels removeLabels : List String) :
    (∀ n ∈ deleteNames (updateIssueLabels current addLabels removeLabels),
        n ∈ removeLabels ∧ strLower n ∈ current.map strLower) ∧
    ((deleteNames (updateIssueLabels current addLabels removeLabels)).map strLower).Nodup ∧
    ((∀ n ∈ removeLabels, strLower n ∉ current.map strLower) →
        deleteNames (updateIssueLabels current addLabels removeLabels) = []) := by
  have hd : deleteNames (updateIssueLabels current addLabels removeLabels) =
      (removeFilter (current.map strLower) removeLabels ([], [])).1 := by
    rw [updateIssueLabels_eq, deleteNames_append, deleteNames_map_delete,
      deleteNames_addIf, List.append_nil]
  refine ⟨?_, ?_, ?_⟩
  · intro n hn
    rw [hd] at hn
    rcases removeFilter_fst_sub _ _ _ _ hn with h | h
    · cases h
    · exact h
  · rw [hd]
    exact removeFilter_fst_nodup _ _ _ (by simp) (by simp)
  · intro h
    rw [hd]
    exact removeFilter_nil _ _ h

/-- C10, witness: no DELETE when the remove name is not attached. -/
theorem claim10_witness :
    deleteNames (updateIssueLabels ["keep"] ["new"] ["gone"]) = [] :=
  (claim10_filter ["keep"] ["new"] ["gone"]).2.2 (by decide)
